import Mathlib

/-!
Verification development for the forward stepwise regression engine of
`webviz_subsurface/plugins/_multiple_regression.py` (functions
`forward_selected` and `_gen_interaction_df`).

The embedding idealises IEEE floating point as exact rational arithmetic,
with one deliberate exception: the division `SS_RES / SST` is modelled as
returning "NaN" (`Option.none`) when `SST = 0`, and NaN propagates through
the score formula and compares false under `<` and `==`, exactly as Python
floats behave.  All other divisions performed by the code are guarded
(matrix pivots are nonzero, `n - p - 1 >= 1` after the degrees-of-freedom
check), so exact division is faithful there.

Rationals are represented by a dedicated `Frac` type (integer numerator,
positive denominator, reduced by a fuel-based Euclid) because every
definition must evaluate inside the kernel on concrete inputs.
-/

/-- Fuel-based Euclidean gcd on naturals; `fuelGcd` with fuel `a + 1`
computes `gcd a b`.  Structural recursion keeps it kernel-reducible. -/
def fuelGcdAux : Nat → Nat → Nat → Nat
  | 0, _, b => b
  | _ + 1, 0, b => b
  | f + 1, a, b => fuelGcdAux f (b % a) a

/-- Kernel-friendly gcd of two naturals. -/
def fgcd (a b : Nat) : Nat := fuelGcdAux (a + 1) a b

/-- Exact rational number: integer numerator and (by construction of all
operations below) positive denominator, kept in lowest terms. -/
structure Frac where
  num : Int
  den : Int
deriving DecidableEq, Repr

/-- Normalising constructor: fixes the sign of the denominator and divides
out the gcd.  A zero denominator never arises in guarded code paths; it is
mapped to `0/1` so the function stays total. -/
def mkFrac (n d : Int) : Frac :=
  if d = 0 then ⟨0, 1⟩
  else
    let n1 : Int := if d < 0 then -n else n
    let d1 : Int := if d < 0 then -d else d
    let g : Int := Int.ofNat (fgcd n1.natAbs d1.natAbs)
    ⟨n1 / g, d1 / g⟩

/-- Embed an integer as a fraction. -/
def fint (n : Int) : Frac := ⟨n, 1⟩

/-- Addition on `Frac`. -/
def fadd (a b : Frac) : Frac := mkFrac (a.num * b.den + b.num * a.den) (a.den * b.den)

/-- Subtraction on `Frac`. -/
def fsub (a b : Frac) : Frac := mkFrac (a.num * b.den - b.num * a.den) (a.den * b.den)

/-- Multiplication on `Frac`. -/
def fmul (a b : Frac) : Frac := mkFrac (a.num * b.num) (a.den * b.den)

/-- Negation on `Frac`. -/
def fneg (a : Frac) : Frac := ⟨-a.num, a.den⟩

/-- Exact division, used only where the divisor is provably nonzero
(matrix pivots, the `(n-1)/(n-p-1)` factor after the dof guard). -/
def fdivQ (a b : Frac) : Frac := mkFrac (a.num * b.den) (a.den * b.num)

/-- Division as the Python float division behaves on the one unguarded
spot (`SS_RES / SST`): division by zero yields NaN (`none`). -/
def fdivNaN (a b : Frac) : Option Frac :=
  if b.num = 0 then none else some (fdivQ a b)

/-- Strict order on `Frac` by cross multiplication (denominators are
positive by construction). -/
def fltB (a b : Frac) : Bool := a.num * b.den < b.num * a.den

/-- Value equality on `Frac` by cross multiplication. -/
def feqB (a b : Frac) : Bool := a.num * b.den = b.num * a.den

/-- Python float `<` including NaN semantics: any comparison with NaN is
false. -/
def foLt (a b : Option Frac) : Bool :=
  match a, b with
  | some x, some y => fltB x y
  | _, _ => false

/-- Python float `==` including NaN semantics: any comparison with NaN is
false. -/
def foEq (a b : Option Frac) : Bool :=
  match a, b with
  | some x, some y => feqB x y
  | _, _ => false

/-- Sum of a list of fractions (`np.sum`). -/
def fsum (l : List Frac) : Frac := l.foldl fadd (fint 0)

/-- Dot product of two columns (`numpy` matrix products reduce to these). -/
def fdot (v w : List Frac) : Frac := fsum (List.zipWith fmul v w)

/-- Scale a vector by a fraction. -/
def fscale (c : Frac) (v : List Frac) : List Frac := v.map (fmul c)

/-- Pointwise sum of two vectors. -/
def fvadd (v w : List Frac) : List Frac := List.zipWith fadd v w

/-- The all-ones column of length `n` (`np.ones((n, 1))`). -/
def onesVec (n : Nat) : List Frac := List.replicate n (fint 1)

/-- Zero vector of length `n`. -/
def zeroVec (n : Nat) : List Frac := List.replicate n (fint 0)

/-- Sum of squared deviations, the pattern used for `SST` and
`SS_RES` in `forward_selected`. -/
def sumSqDev (v : List Frac) (c : Frac) : Frac :=
  fsum (v.map (fun x => fmul (fsub x c) (fsub x c)))

/-- Arithmetic mean of a column (`np.mean`); lists in this development are
nonempty in every claim, and the `n = 0` case is never exercised. -/
def fmean (v : List Frac) : Frac := fdivQ (fsum v) (fint (Int.ofNat v.length))

/-!  Exact matrix inversion, the model of `numpy.linalg.inv`: it returns
the true inverse of a nonsingular matrix and raises `LinAlgError` exactly
on singular input, which the embedding renders as `none`.  The inverse is
computed by the adjugate formula `A⁻¹ = adj(A) / det(A)`. -/

/-- Matrix as list of rows. -/
def Mat := List (List Frac)
deriving DecidableEq, Repr

/-- Entry access with a zero default (all accesses are in range). -/
def matGet (m : Mat) (i j : Nat) : Frac := ((m.getD i []).getD j (fint 0))

/-- Remove row `i` and column `j`. -/
def minorMat (m : Mat) (i j : Nat) : Mat :=
  (m.eraseIdx i).map (fun r => r.eraseIdx j)

/-- Sign `(-1)^k`. -/
def altSign (k : Nat) : Frac := if k % 2 = 0 then fint 1 else fint (-1)

/-- Determinant by Laplace expansion along the first row, with the matrix
dimension as structural fuel. -/
def detAux : Nat → Mat → Frac
  | 0, _ => fint 1
  | k + 1, m =>
    fsum ((List.range (k + 1)).map (fun j =>
      fmul (fmul (altSign j) (matGet m 0 j)) (detAux k (minorMat m 0 j))))

/-- Determinant of a square matrix. -/
def detMat (m : Mat) : Frac := detAux m.length m

/-- Adjugate matrix: `adj[i][j] = (-1)^(i+j) det(minor j i)`. -/
def adjMat (m : Mat) : Mat :=
  let n := m.length
  (List.range n).map (fun i =>
    (List.range n).map (fun j =>
      fmul (altSign (i + j)) (detAux (n - 1) (minorMat m j i))))

/-- Model of `numpy.linalg.inv`: `none` exactly when the matrix is
singular (`LinAlgError`), otherwise the exact inverse. -/
def matInv (m : Mat) : Option Mat :=
  let d := detMat m
  if d.num = 0 then none
  else some ((adjMat m).map (fun r => r.map (fun x => fdivQ x d)))

/-- Matrix-vector product (rows dotted with the vector). -/
def matVec (m : Mat) (v : List Frac) : List Frac := m.map (fun r => fdot r v)

/-- Gram matrix `XᵀX` of a design matrix given by its list of columns. -/
def gram (cols : List (List Frac)) : Mat :=
  cols.map (fun ci => cols.map (fun cj => fdot ci cj))

/-- Product `Xᵀy` for a design matrix given by its columns. -/
def xty (cols : List (List Frac)) (y : List Frac) : List Frac :=
  cols.map (fun c => fdot c y)

/-- Fitted values `X β` (equivalently `beta @ X.T` in the source), as the
linear combination of the columns with the coefficients. -/
def linComb (beta : List Frac) (cols : List (List Frac)) (n : Nat) : List Frac :=
  (List.zipWith fscale beta cols).foldl fvadd (zeroVec n)

/-!  String-level term classification: the source decides "interaction
term or base term" solely by the substring test `"*" in candidate` and by
`candidate.split("*")`. -/

/-- Model of Python `"*" in s`. -/
def hasStar (s : String) : Bool := s.data.contains '*'

/-- Helper for `splitStar`: structural split of a character list on the
separator. -/
def splitStarAux : List Char → List Char → List String
  | [], acc => [String.mk acc.reverse]
  | c :: cs, acc =>
    if c = '*' then String.mk acc.reverse :: splitStarAux cs []
    else splitStarAux cs (c :: acc)

/-- Model of Python `s.split("*")`. -/
def splitStar (s : String) : List String := splitStarAux s.data []

/-- Model of Python `"*".join(parts)`. -/
def joinStar : List String → String
  | [] => ""
  | [s] => s
  | s :: rest => s ++ "*" ++ joinStar rest

/-- Model of `list(set(parts).difference(set(sel)))`: duplicates removed,
already-selected names removed.  Python iterates a hash set in an
unspecified order; the embedding fixes the order of first appearance,
which is unobservable (it only permutes design-matrix columns, leaving
`p` and the fitted values unchanged). -/
def pySetDiff (parts sel : List String) : List String :=
  parts.dedup.filter (fun f => !(sel.contains f))

/-- A pandas DataFrame as the engine sees it: named numeric columns in
order, rows indexed positionally. -/
structure DataSet where
  cols : List (String × List Frac)
deriving DecidableEq, Repr

/-- Column names in order. -/
def DataSet.names (d : DataSet) : List String := d.cols.map (fun c => c.1)

/-- Look up a column by name (first match). -/
def DataSet.getCol (d : DataSet) (s : String) : Option (List Frac) :=
  (d.cols.find? (fun c => c.1 == s)).map (fun c => c.2)

/-- Whether a column with this name exists. -/
def DataSet.hasCol (d : DataSet) (s : String) : Bool := (d.getCol s).isSome

/-- Model of `df.filter(items=items)`: the existing columns among
`items`, in the order of `items`; missing names are silently dropped. -/
def DataSet.filterItems (d : DataSet) (items : List String) : List (List Frac) :=
  items.filterMap d.getCol

/-- Number of rows. -/
def DataSet.nrows (d : DataSet) : Nat :=
  match d.cols with
  | [] => 0
  | c :: _ => c.2.length

/-- Model of `df.drop(columns=name)`. -/
def DataSet.dropCol (d : DataSet) (name : String) : DataSet :=
  ⟨d.cols.filter (fun c => !(c.1 == name))⟩

/-- Model of `df[name] = v`: overwrite the column in place if the name
exists, otherwise append it as the last column. -/
def setColAux (name : String) (v : List Frac) : List (String × List Frac) → List (String × List Frac)
  | [] => [(name, v)]
  | c :: cs => if c.1 == name then (name, v) :: cs else c :: setColAux name v cs

/-- Assignment `df[name] = v` at the DataFrame level. -/
def DataSet.setCol (d : DataSet) (name : String) (v : List Frac) : DataSet :=
  ⟨setColAux name v d.cols⟩

/-!  The forward stepwise selector (`forward_selected`). -/

/-- Search-invariant context computed once at entry of
`forward_selected`: the response vector `y`, `n`, `y_mean`, `SST`, the
dataset and `maxvars`. -/
structure Ctx where
  data : DataSet
  y : List Frac
  n : Nat
  ymean : Frac
  sst : Frac
  maxvars : Nat
deriving DecidableEq, Repr

/-- The trial model for one candidate: `selected.copy() + [candidate]`
plus, when the candidate name contains `"*"`, the candidate's split
fragments not already selected. -/
def trialModel (sel : List String) (cand : String) : List String :=
  if hasStar cand then sel ++ [cand] ++ pySetDiff (splitStar cand) sel
  else sel ++ [cand]

/-- Outcome of evaluating one candidate inside the round: the
degrees-of-freedom floor fired, or the Gram matrix was singular
(`LinAlgError`, candidate skipped), or an adjusted-R² score (NaN when
`SST = 0`). -/
inductive CandResult
  | floor
  | skip
  | score (s : Option Frac)
deriving DecidableEq, Repr

/-- The columns of the trial design matrix,
`X = data.filter(items=current_model).to_numpy()`: the trial-model names
that exist in the data, in trial-model order. -/
def trialCols (ctx : Ctx) (sel : List String) (cand : String) : List (List Frac) :=
  ctx.data.filterItems (trialModel sel cand)

/-- Count `p = X.shape[1]`, recorded by the source before the intercept column
is appended: the number of trial columns, the intercept excluded. -/
def pOf (ctx : Ctx) (sel : List String) (cand : String) : Nat :=
  (trialCols ctx sel cand).length

/-- The degrees-of-freedom floor test `n - p - 1 < 1` for one trial. -/
def floorB (ctx : Ctx) (sel : List String) (cand : String) : Bool :=
  (ctx.n : Int) - (pOf ctx sel cand : Int) - 1 < 1

/-- The design matrix after `X = np.append(X, onevec, axis=1)`: the trial
columns followed by the constant ones column for the intercept. -/
def designCols (ctx : Ctx) (sel : List String) (cand : String) : List (List Frac) :=
  trialCols ctx sel cand ++ [onesVec ctx.n]

/-- Fitted values `f_vec = beta @ X.T` with `beta = inv(XᵀX) @ Xᵀ @ y`;
`none` models the `LinAlgError` raised on a singular `XᵀX`. -/
def fittedOf (ctx : Ctx) (sel : List String) (cand : String) : Option (List Frac) :=
  (matInv (gram (designCols ctx sel cand))).map (fun g =>
    linComb (matVec g (xty (designCols ctx sel cand) ctx.y)) (designCols ctx sel cand) ctx.n)

/-- One candidate evaluation, exactly the body of the inner `for` loop of
`forward_selected`: build `X` from the trial columns present in the data,
record `p = X.shape[1]` before the intercept column is appended, test the
dof floor `n - p - 1 < 1`, append the ones column, solve the normal
equations via `inv(XᵀX) Xᵀ y`, and score
`1 - (1 - SS_RES/SST) * ((n-1)/(n-p-1))` with `SS_RES = Σ(ŷᵢ - ȳ)²`. -/
def evalCand (ctx : Ctx) (sel : List String) (cand : String) : CandResult :=
  if floorB ctx sel cand then .floor
  else
    match fittedOf ctx sel cand with
    | none => .skip
    | some fv =>
      let ssres := sumSqDev fv ctx.ymean
      let ratio := fdivQ (fint ((ctx.n : Int) - 1))
        (fint ((ctx.n : Int) - (pOf ctx sel cand : Int) - 1))
      .score ((fdivNaN ssres ctx.sst).map (fun r => fsub (fint 1) (fmul (fsub (fint 1) r) ratio)))

/-- Result of scanning the candidates of one round: either the dof floor
aborted the whole search while `selected` had the recorded value, or the
accumulated `(score, candidate)` list in evaluation order. -/
inductive CandScan
  | floorAbort (sel : List String)
  | scores (l : List (Option Frac × String))
deriving DecidableEq, Repr

/-- The inner `for candidate in remaining` loop: skipped candidates
contribute nothing, scored candidates are appended in order, and the dof
floor aborts the scan (and, one level up, the whole search) at once. -/
def scanCands (ctx : Ctx) (sel : List String) : List String → List (Option Frac × String) → CandScan
  | [], acc => .scores acc
  | c :: rest, acc =>
    match evalCand ctx sel c with
    | .floor => .floorAbort sel
    | .skip => scanCands ctx sel rest acc
    | .score s => scanCands ctx sel rest (acc ++ [(s, c)])

/-- Insert one scored candidate into an ascending list, after everything
it is not strictly below (NaN keys compare false and therefore sink to
wherever they already are, matching CPython sort behaviour on the cases
this development exercises). -/
def insertAsc (x : Option Frac × String) : List (Option Frac × String) → List (Option Frac × String)
  | [] => [x]
  | y :: ys => if foLt x.1 y.1 then x :: y :: ys else y :: insertAsc x ys

/-- Model of `scores_with_candidates.sort(key=lambda x: x[0])`: a stable
ascending sort on the score. -/
def sortScores (l : List (Option Frac × String)) : List (Option Frac × String) :=
  l.foldl (fun acc x => insertAsc x acc) []

/-- The commit loop for the fragments of an interaction candidate: each
`"*"`-split fragment is removed from `remaining` if present and appended
to `selected` if absent. -/
def commitFrags : List String × List String → List String → List String × List String
  | sr, [] => sr
  | (sel, rem), f :: fs =>
    commitFrags ((if sel.contains f then sel else sel ++ [f]), rem.erase f) fs

/-- Committing the best candidate: fragments first when the name contains
`"*"`, then the candidate itself moves from `remaining` to `selected`. -/
def commitBest (sel rem : List String) (bc : String) : List String × List String :=
  if hasStar bc then
    let sr := commitFrags (sel, rem) (splitStar bc)
    (sr.1 ++ [bc], sr.2.erase bc)
  else (sel ++ [bc], rem.erase bc)

/-- The returned fitted model, represented by its design: the exogenous
column names of the final OLS fit (`data.filter(items=selected)` plus the
appended `Intercept` ones column) and the engine's final `selected` list.
The numeric OLS coefficients of the final fit are outside every claim and
are not modelled. -/
structure FitModel where
  exogNames : List String
  selected : List String
deriving DecidableEq, Repr

/-- The final (or early-abort) refit: `sm.OLS(y, data.filter(items=selected)
with an Intercept column)`; names absent from the data are silently
dropped by `filter`. -/
def finalRefit (ctx : Ctx) (sel : List String) : FitModel :=
  { exogNames := sel.filter (fun s => ctx.data.hasCol s) ++ ["Intercept"],
    selected := sel }

/-- Observable outcome of a call: a returned model, an uncaught
`IndexError` from `scores_with_candidates.pop()` on an empty list, or an
uncaught `KeyError` for a missing response column. -/
inductive Outcome
  | ok (m : FitModel)
  | indexError
  | keyError
deriving DecidableEq, Repr

/-- The `while` loop of `forward_selected`, with explicit fuel: `none`
means the given fuel was exhausted before the loop exited (the code has
no fuel; a run that returns `none` for every fuel never terminates).
State: `selected`, `remaining` (in deterministic column order, standing
for the Python hash set), `current_score`, `best_new_score`. -/
def loopAux (ctx : Ctx) : Nat → List String → List String → Option Frac → Option Frac → Option Outcome
  | 0, sel, rem, cur, best =>
    if !rem.isEmpty && foEq cur best && sel.length < ctx.maxvars then none
    else some (.ok (finalRefit ctx sel))
  | f + 1, sel, rem, cur, best =>
    if !rem.isEmpty && foEq cur best && sel.length < ctx.maxvars then
      match scanCands ctx sel rem [] with
      | .floorAbort s => some (.ok (finalRefit ctx s))
      | .scores scs =>
        match (sortScores scs).getLast? with
        | none => some .indexError
        | some bsc =>
          if foLt cur bsc.1 then
            let sr := commitBest sel rem bsc.2
            loopAux ctx f sr.1 sr.2 bsc.1 bsc.1
          else
            loopAux ctx f sel rem cur bsc.1
    else some (.ok (finalRefit ctx sel))

/-- The context `forward_selected` computes before its loop. -/
def mkCtx (data : DataSet) (response : String) (maxvars : Nat) : Ctx :=
  let y := (data.getCol response).getD []
  { data := data, y := y, n := y.length, ymean := fmean y,
    sst := sumSqDev y (fmean y), maxvars := maxvars }

/-- Initial `remaining = set(data.columns).difference(set(force_in + [response]))`,
iterated in dataset column order. -/
def initRemaining (data : DataSet) (response : String) (fi : List String) : List String :=
  data.names.filter (fun c => !((fi ++ [response]).contains c))

/-- Entry point `forward_selected(data, response, force_in, maxvars)`.  Note the
source binds `selected = force_in` without copying, so the engine's
`selected` list is the caller's `force_in` object. -/
def forwardSelected (data : DataSet) (response : String) (fi : List String)
    (maxvars : Nat) (fuel : Nat) : Option Outcome :=
  if data.hasCol response then
    loopAux (mkCtx data response maxvars) fuel fi (initRemaining data response fi)
      (some (fint 0)) (some (fint 0))
  else some .keyError

/-- The value of the caller's `force_in` list after a completed call.
Because the source aliases (`selected = force_in`) and mutates `selected`
in place with `append`, the caller's list object holds the final
`selected` once the call returns; for calls that do not return a model
the pre-call value is used here (those runs are not exercised by the
claim about this definition). -/
def forceInAfterCall (data : DataSet) (response : String) (fi : List String)
    (maxvars : Nat) (fuel : Nat) : List String :=
  match forwardSelected data response fi maxvars fuel with
  | some (.ok m) => m.selected
  | _ => fi

/-!  The interaction expander (`_gen_interaction_df`). -/

/-- Model of `itertools.combinations(l, k)`: all strictly increasing
index selections of length `k`, in lexicographic order of positions. -/
def combosK : Nat → List String → List (List String)
  | 0, _ => [[]]
  | _ + 1, [] => []
  | k + 1, x :: xs => (combosK k xs).map (fun c => x :: c) ++ combosK (k + 1) xs

/-- Row-wise product of a list of columns (`df.filter(...).product(axis=1)`);
the product over zero columns is the all-ones column, the pandas empty
product. -/
def rowProduct (cols : List (List Frac)) (n : Nat) : List Frac :=
  cols.foldl (fun acc c => List.zipWith fmul acc c) (onesVec n)

/-- Expander `_gen_interaction_df(df, response, degree)`: generate the `"*"`-joined
combination names of the non-response columns for sizes `1 .. degree`,
then assign, for each name in order, the row-wise product of the columns
named by its `"*"`-split (columns missing from the frame contribute
nothing).  `none` models the `KeyError` of `df.drop` when the response
column is absent. -/
def genInteractionDf (df : DataSet) (response : String) (degree : Nat) : Option DataSet :=
  if df.hasCol response then
    let nameCombos := (List.range degree).flatMap (fun i =>
      (combosK (i + 1) ((df.dropCol response).names)).map joinStar)
    some (nameCombos.foldl (fun d name =>
      d.setCol name (rowProduct (d.filterItems (splitStar name)) d.nrows)) df)
  else none

/-- Modelled from the spec: the adjusted R-squared formula
`R²_adj = 1 - (1 - SS_RES/SST) × (n-1)/(n-p-1)` as a plain function of
its four ingredients, against which the engine's per-candidate score is
compared. -/
def adjR2Formula (ssres sst : Frac) (n p : Nat) : Frac :=
  fsub (fint 1) (fmul (fsub (fint 1) (fdivQ ssres sst))
    (fdivQ (fint ((n : Int) - 1)) (fint ((n : Int) - (p : Int) - 1))))

/-!  Concrete datasets used to settle the claims. -/

/-- Five rows, one candidate: the candidate's first-round adjusted R² is
exactly `0`, equal to the initial `current_score`, so the round commits
nothing while the loop condition `current_score == best_new_score` stays
true. -/
def dTie : DataSet :=
  ⟨[("Y", [fint 1, fint (-1), fint 1, fint 1, fint (-2)]),
    ("X1", [fint 1, fint (-1), fint 0, fint 0, fint 0])]⟩

/-- The context `forward_selected(dTie, "Y", [], 5)` builds. -/
def ctxTie : Ctx := mkCtx dTie "Y" 5

/-- Six rows with a genuine interaction column `A*B` (the row-wise
product of `A` and `B`) that the response equals exactly. -/
def dInter : DataSet :=
  ⟨[("Y", [fint 1, fint 2, fint 3, fint 2, fint 4, fint 6]),
    ("A", [fint 1, fint 2, fint 3, fint 1, fint 2, fint 3]),
    ("B", [fint 1, fint 1, fint 1, fint 2, fint 2, fint 2]),
    ("A*B", [fint 1, fint 2, fint 3, fint 2, fint 4, fint 6])]⟩

/-- Two identical candidate columns, both equal to the response: the
spec's singular-input scenario. -/
def dCollinear : DataSet :=
  ⟨[("Y", [fint 1, fint 2, fint 3, fint 4]),
    ("A", [fint 1, fint 2, fint 3, fint 4]),
    ("B", [fint 1, fint 2, fint 3, fint 4])]⟩

/-- A zero-variance response (`SST = 0`). -/
def dZeroVar : DataSet :=
  ⟨[("Y", [fint 1, fint 1, fint 1, fint 1]),
    ("X1", [fint 1, fint 2, fint 3, fint 4])]⟩

/-- Minimal improving dataset: one candidate that fits perfectly. -/
def dAlias : DataSet :=
  ⟨[("Y", [fint 1, fint 2, fint 3]),
    ("X1", [fint 1, fint 2, fint 3])]⟩

/-- A dataset whose only candidate is a base column literally named
`"A*B"`; no columns `"A"` or `"B"` exist. -/
def dStarName : DataSet :=
  ⟨[("Y", [fint 1, fint 2, fint 3]),
    ("A*B", [fint 1, fint 2, fint 3])]⟩

/-- Two rows: any one-term trial already hits the dof floor
`n - p - 1 < 1`. -/
def dFloor : DataSet :=
  ⟨[("Y", [fint 1, fint 2]),
    ("A", [fint 1, fint 1]),
    ("B", [fint 0, fint 1])]⟩

/-- One row, one predictor column named `"A*B"` with value `5`. -/
def dStarCol : DataSet := ⟨[("Y", [fint 0]), ("A*B", [fint 5])]⟩

/-- A floor abort always records the `selected` list the round started
with. -/
lemma scanCands_floorAbort_sel (ctx : Ctx) (sel : List String) :
    ∀ (l : List String) (acc : List (Option Frac × String)) (s : List String),
      scanCands ctx sel l acc = .floorAbort s → s = sel := by
  intro l
  induction l with
  | nil => intro acc s h; simp [scanCands] at h
  | cons c rest ih =>
    intro acc s h
    simp only [scanCands] at h
    cases hc : evalCand ctx sel c with
    | floor => rw [hc] at h; cases h; rfl
    | skip => rw [hc] at h; exact ih _ _ h
    | score sc => rw [hc] at h; exact ih _ _ h

/-- Every scored pair produced by a round either was already accumulated
or names a candidate from the pending list. -/
lemma scanCands_scores_mem (ctx : Ctx) (sel : List String) :
    ∀ (l : List String) (acc scs : List (Option Frac × String)),
      scanCands ctx sel l acc = .scores scs →
      ∀ q ∈ scs, q ∈ acc ∨ q.2 ∈ l := by
  intro l
  induction l with
  | nil =>
    intro acc scs h q hq
    simp only [scanCands] at h
    cases h
    exact Or.inl hq
  | cons c rest ih =>
    intro acc scs h q hq
    simp only [scanCands] at h
    cases hc : evalCand ctx sel c with
    | floor => rw [hc] at h; cases h
    | skip =>
      rw [hc] at h
      rcases ih _ _ h q hq with h1 | h2
      · exact Or.inl h1
      · exact Or.inr (List.mem_cons_of_mem _ h2)
    | score sc =>
      rw [hc] at h
      rcases ih _ _ h q hq with h1 | h2
      · rcases List.mem_append.mp h1 with h3 | h3
        · exact Or.inl h3
        · simp at h3
          exact Or.inr (by simp [h3])
      · exact Or.inr (List.mem_cons_of_mem _ h2)

/-- Membership in an insertion step. -/
lemma mem_insertAsc (x q : Option Frac × String) :
    ∀ l, q ∈ insertAsc x l → q = x ∨ q ∈ l := by
  intro l
  induction l with
  | nil => intro h; simp [insertAsc] at h; exact Or.inl h
  | cons y ys ih =>
    intro h
    simp only [insertAsc] at h
    by_cases hc : foLt x.1 y.1 = true
    · rw [if_pos hc] at h
      rcases List.mem_cons.mp h with h1 | h1
      · exact Or.inl h1
      · exact Or.inr h1
    · rw [if_neg hc] at h
      rcases List.mem_cons.mp h with h1 | h1
      · exact Or.inr (by simp [h1])
      · rcases ih h1 with h2 | h2
        · exact Or.inl h2
        · exact Or.inr (List.mem_cons_of_mem _ h2)

/-- The sorted score list is drawn from the unsorted one. -/
lemma mem_sortScores (l : List (Option Frac × String)) (q : Option Frac × String) :
    q ∈ sortScores l → q ∈ l := by
  suffices h : ∀ acc, q ∈ l.foldl (fun a x => insertAsc x a) acc → q ∈ acc ∨ q ∈ l by
    intro hq
    rcases h [] hq with h1 | h1
    · simp at h1
    · exact h1
  induction l with
  | nil => intro acc h; exact Or.inl h
  | cons x xs ih =>
    intro acc h
    rcases ih (insertAsc x acc) h with h1 | h1
    · rcases mem_insertAsc x q acc h1 with h2 | h2
      · exact Or.inr (by simp [h2])
      · exact Or.inl h2
    · exact Or.inr (List.mem_cons_of_mem _ h1)

/-- The selected-list component of the fragment-commit loop is the plain
append-if-absent fold of the fragments. -/
lemma commitFrags_fst_foldl :
    ∀ (fs sel rem : List String),
      (commitFrags (sel, rem) fs).1 =
        fs.foldl (fun s f => if s.contains f then s else s ++ [f]) sel := by
  intro fs
  induction fs with
  | nil => intro sel rem; rfl
  | cons f rest ih =>
    intro sel rem
    simp only [commitFrags, List.foldl]
    exact ih _ _

/-- The remaining-list component of the fragment-commit loop only loses
elements. -/
lemma commitFrags_snd_sub :
    ∀ (fs sel rem : List String) (x : String),
      x ∈ (commitFrags (sel, rem) fs).2 → x ∈ rem := by
  intro fs
  induction fs with
  | nil => intro sel rem x h; exact h
  | cons f rest ih =>
    intro sel rem x h
    simp only [commitFrags] at h
    exact List.mem_of_mem_erase (ih _ _ _ h)

/-- The selected-list component of the fragment-commit loop only grows. -/
lemma commitFrags_fst_mono :
    ∀ (fs sel rem : List String) (x : String),
      x ∈ sel → x ∈ (commitFrags (sel, rem) fs).1 := by
  intro fs
  induction fs with
  | nil => intro sel rem x h; exact h
  | cons f rest ih =>
    intro sel rem x h
    simp only [commitFrags]
    apply ih
    by_cases hc : sel.contains f = true
    · rw [if_pos hc]; exact h
    · rw [if_neg hc]; exact List.mem_append_left _ h

/-- After the fragment-commit loop, every fragment is selected. -/
lemma commitFrags_fst_adds :
    ∀ (fs sel rem : List String) (f : String),
      f ∈ fs → f ∈ (commitFrags (sel, rem) fs).1 := by
  intro fs
  induction fs with
  | nil => intro sel rem f h; cases h
  | cons g rest ih =>
    intro sel rem f h
    rcases List.mem_cons.mp h with h1 | h1
    · subst h1
      simp only [commitFrags]
      apply commitFrags_fst_mono
      by_cases hc : sel.contains f = true
      · rw [if_pos hc]; simpa using hc
      · rw [if_neg hc]; exact List.mem_append_right _ (by simp)
    · simp only [commitFrags]
      exact ih _ _ _ h1

/-- Anything selected after the fragment-commit loop was selected before
or is one of the fragments. -/
lemma commitFrags_fst_cases :
    ∀ (fs sel rem : List String) (x : String),
      x ∈ (commitFrags (sel, rem) fs).1 → x ∈ sel ∨ x ∈ fs := by
  intro fs
  induction fs with
  | nil => intro sel rem x h; exact Or.inl h
  | cons f rest ih =>
    intro sel rem x h
    simp only [commitFrags] at h
    rcases ih _ _ _ h with h1 | h1
    · by_cases hc : sel.contains f = true
      · rw [if_pos hc] at h1; exact Or.inl h1
      · rw [if_neg hc] at h1
        rcases List.mem_append.mp h1 with h2 | h2
        · exact Or.inl h2
        · simp at h2; exact Or.inr (by simp [h2])
    · exact Or.inr (List.mem_cons_of_mem _ h1)

/-- Committing only removes names from `remaining`. -/
lemma commitBest_snd_sub (sel rem : List String) (bc x : String) :
    x ∈ (commitBest sel rem bc).2 → x ∈ rem := by
  intro h
  simp only [commitBest] at h
  by_cases hs : hasStar bc = true
  · rw [if_pos hs] at h
    exact commitFrags_snd_sub _ _ _ _ (List.mem_of_mem_erase h)
  · rw [if_neg hs] at h
    exact List.mem_of_mem_erase h

/-- Committing only adds names to `selected`. -/
lemma commitBest_fst_mono (sel rem : List String) (bc x : String) :
    x ∈ sel → x ∈ (commitBest sel rem bc).1 := by
  intro h
  simp only [commitBest]
  by_cases hs : hasStar bc = true
  · rw [if_pos hs]
    exact List.mem_append_left _ (commitFrags_fst_mono _ _ _ _ h)
  · rw [if_neg hs]
    exact List.mem_append_left _ h

/-- Committing a base candidate (no `"*"` in the name) appends exactly
that candidate. -/
lemma commitBest_nostar (sel rem : List String) (bc : String)
    (h : hasStar bc = false) :
    commitBest sel rem bc = (sel ++ [bc], rem.erase bc) := by
  simp [commitBest, h]

/-- A character list avoiding the separator has `contains '\x2a'` false. -/
lemma contains_star_false (l : List Char) (h : '*' ∉ l) : l.contains '*' = false := by
  simpa using h

/-- Helper `splitStarAux` never produces a fragment containing the separator. -/
lemma splitStarAux_nostar :
    ∀ (cs acc : List Char), (∀ c ∈ acc, c ≠ '*') →
      ∀ f ∈ splitStarAux cs acc, hasStar f = false := by
  intro cs
  induction cs with
  | nil =>
    intro acc hacc f hf
    simp only [splitStarAux] at hf
    have hf1 : f = String.mk acc.reverse := List.mem_singleton.mp hf
    subst hf1
    simp only [hasStar]
    refine contains_star_false _ ?_
    intro hmem
    exact hacc '*' (List.mem_reverse.mp hmem) rfl
  | cons c rest ih =>
    intro acc hacc f hf
    simp only [splitStarAux] at hf
    by_cases hc : c = '*'
    · rw [if_pos hc] at hf
      rcases List.mem_cons.mp hf with h1 | h1
      · subst h1
        simp only [hasStar]
        refine contains_star_false _ ?_
        intro hmem
        exact hacc '*' (List.mem_reverse.mp hmem) rfl
      · exact ih [] (by simp) f h1
    · rw [if_neg hc] at hf
      refine ih (c :: acc) ?_ f hf
      intro d hd
      rcases List.mem_cons.mp hd with h1 | h1
      · subst h1; exact hc
      · exact hacc d h1

/-- Fragments of a `"*"`-split never contain `"*"` themselves. -/
lemma splitStar_frag_nostar (s f : String) (h : f ∈ splitStar s) : hasStar f = false :=
  splitStarAux_nostar s.data [] (by simp) f h

/-- Splitting a separator-free string returns the singleton list. -/
lemma splitStarAux_no_sep :
    ∀ (cs acc : List Char), '*' ∉ cs →
      splitStarAux cs acc = [String.mk (acc.reverse ++ cs)] := by
  intro cs
  induction cs with
  | nil => intro acc h; simp [splitStarAux]
  | cons c rest ih =>
    intro acc h
    have hc : c ≠ '*' := fun hx => h (hx ▸ List.mem_cons_self c rest)
    simp only [splitStarAux, if_neg hc]
    rw [ih (c :: acc) (fun hx => h (List.mem_cons_of_mem _ hx))]
    simp

/-- A name without `"*"` splits to itself. -/
lemma splitStar_nostar (s : String) (h : hasStar s = false) : splitStar s = [s] := by
  have hmem : '*' ∉ s.data := by
    intro hx
    simp only [hasStar] at h
    simp at h
    exact h hx
  simp only [splitStar]
  rw [splitStarAux_no_sep s.data [] hmem]
  rfl

/-- Interaction closure of a selected list: every selected name that
contains `"*"` has all its split fragments selected too. -/
def SelClosed (sel : List String) : Prop :=
  ∀ t ∈ sel, hasStar t = true → ∀ f ∈ splitStar t, f ∈ sel

/-- Committing any best candidate preserves interaction closure. -/
lemma commitBest_closed (sel rem : List String) (bc : String)
    (h : SelClosed sel) : SelClosed (commitBest sel rem bc).1 := by
  intro t ht hstar f hf
  by_cases hs : hasStar bc = true
  · simp only [commitBest, if_pos hs] at ht ⊢
    rcases List.mem_append.mp ht with h1 | h1
    · rcases commitFrags_fst_cases _ _ _ _ h1 with h2 | h2
      · exact List.mem_append_left _ (commitFrags_fst_mono _ _ _ _ (h t h2 hstar f hf))
      · exact absurd hstar (by simp [splitStar_frag_nostar bc t h2])
    · have : t = bc := List.mem_singleton.mp h1
      subst this
      exact List.mem_append_left _ (commitFrags_fst_adds _ _ _ _ hf)
  · have hs2 : hasStar bc = false := by simpa using hs
    rw [commitBest_nostar _ _ _ hs2] at ht ⊢
    rcases List.mem_append.mp ht with h1 | h1
    · exact List.mem_append_left _ (h t h1 hstar f hf)
    · have : t = bc := List.mem_singleton.mp h1
      subst this
      exact absurd hstar (by simp [hs2])

/-- Loop invariant for interaction closure: a model returned by the
`while` loop has a closed selected list whenever the loop starts from a
closed one. -/
lemma loopAux_closed (ctx : Ctx) :
    ∀ (fuel : Nat) (sel rem : List String) (cur best : Option Frac) (m : FitModel),
      SelClosed sel →
      loopAux ctx fuel sel rem cur best = some (.ok m) →
      SelClosed m.selected := by
  intro fuel
  induction fuel with
  | zero =>
    intro sel rem cur best m hsel hok
    simp only [loopAux] at hok
    split at hok
    · cases hok
    · cases hok
      exact hsel
  | succ f ih =>
    intro sel rem cur best m hsel hok
    simp only [loopAux] at hok
    split at hok
    case isFalse => cases hok; exact hsel
    case isTrue hg =>
      split at hok
      case h_1 s hscan =>
        have hs : s = sel := scanCands_floorAbort_sel ctx sel rem [] s hscan
        subst hs
        cases hok
        exact hsel
      case h_2 scs hscan =>
        split at hok
        case h_1 => cases hok
        case h_2 bsc hlast =>
          split at hok
          case isTrue =>
            exact ih _ _ _ _ _ (commitBest_closed sel rem bsc.2 hsel) hok
          case isFalse =>
            exact ih _ _ _ _ _ hsel hok

/-- Loop monotonicity: the `while` loop only ever appends to `selected`
(directly, or through the fragment loop of a starred commit), so every
name selected when the loop starts — in particular every `force_in`
name — is in the returned model's selected list, with no proviso on the
dataset's column names. -/
lemma loopAux_mono (ctx : Ctx) :
    ∀ (fuel : Nat) (sel rem : List String) (cur best : Option Frac) (m : FitModel),
      loopAux ctx fuel sel rem cur best = some (.ok m) →
      ∀ x ∈ sel, x ∈ m.selected := by
  intro fuel
  induction fuel with
  | zero =>
    intro sel rem cur best m hok
    simp only [loopAux] at hok
    split at hok
    · cases hok
    · cases hok
      exact fun x hx => hx
  | succ f ih =>
    intro sel rem cur best m hok
    simp only [loopAux] at hok
    split at hok
    case isFalse => cases hok; exact fun x hx => hx
    case isTrue hg =>
      split at hok
      case h_1 s hscan =>
        have hs : s = sel := scanCands_floorAbort_sel ctx sel rem [] s hscan
        subst hs
        cases hok
        exact fun x hx => hx
      case h_2 scs hscan =>
        split at hok
        case h_1 => cases hok
        case h_2 bsc hlast =>
          split at hok
          case isTrue =>
            intro x hx
            exact ih _ _ _ _ m hok x (commitBest_fst_mono sel rem bsc.2 x hx)
          case isFalse =>
            exact ih _ _ _ _ m hok

/-- Loop invariant for the cardinality bound: when every pending
candidate name is `"*"`-free, each committed round grows `selected` by
exactly one, the loop guard enforces `len(selected) < maxvars` before a
round, and so a returned model keeps `selected` within `maxvars`; the
selected list moreover only grows, and the exogenous names of the
returned model are the selected names present in the data plus the
intercept. -/
lemma loopAux_card (ctx : Ctx) :
    ∀ (fuel : Nat) (sel rem : List String) (cur best : Option Frac) (m : FitModel),
      (∀ c ∈ rem, hasStar c = false) →
      sel.length ≤ ctx.maxvars →
      loopAux ctx fuel sel rem cur best = some (.ok m) →
      m.selected.length ≤ ctx.maxvars ∧ (∀ x ∈ sel, x ∈ m.selected) ∧
        m.exogNames = m.selected.filter (fun s => ctx.data.hasCol s) ++ ["Intercept"] := by
  intro fuel
  induction fuel with
  | zero =>
    intro sel rem cur best m hrem hsel hok
    simp only [loopAux] at hok
    split at hok
    · cases hok
    · cases hok
      exact ⟨hsel, fun x hx => hx, rfl⟩
  | succ f ih =>
    intro sel rem cur best m hrem hsel hok
    simp only [loopAux] at hok
    split at hok
    case isFalse => cases hok; exact ⟨hsel, fun x hx => hx, rfl⟩
    case isTrue hg =>
      have hlen : sel.length < ctx.maxvars := by
        simp only [Bool.and_eq_true, decide_eq_true_eq] at hg
        exact hg.2
      split at hok
      case h_1 s hscan =>
        have hs : s = sel := scanCands_floorAbort_sel ctx sel rem [] s hscan
        subst hs
        cases hok
        exact ⟨hsel, fun x hx => hx, rfl⟩
      case h_2 scs hscan =>
        split at hok
        case h_1 => cases hok
        case h_2 bsc hlast =>
          have hbc : bsc.2 ∈ rem := by
            have h1 : bsc ∈ sortScores scs := List.mem_of_getLast?_eq_some hlast
            have h2 : bsc ∈ scs := mem_sortScores scs bsc h1
            rcases scanCands_scores_mem ctx sel rem [] scs hscan bsc h2 with h3 | h3
            · cases h3
            · exact h3
          have hbstar : hasStar bsc.2 = false := hrem bsc.2 hbc
          split at hok
          case isTrue =>
            rw [commitBest_nostar sel rem bsc.2 hbstar] at hok
            have := ih (sel ++ [bsc.2]) (rem.erase bsc.2) bsc.1 bsc.1 m
              (fun c hc => hrem c (List.mem_of_mem_erase hc))
              (by simpa using hlen) hok
            exact ⟨this.1, fun x hx => this.2.1 x (List.mem_append_left _ hx), this.2.2⟩
          case isFalse =>
            exact ih _ _ _ _ _ hrem hsel hok

/-- A partially scanned round continues from its accumulator: scanning
`pre ++ l` equals scanning `l` from the scores `pre` produced, whenever
`pre` did not abort. -/
lemma scanCands_append (ctx : Ctx) (sel : List String) :
    ∀ (pre l : List String) (acc acc2 : List (Option Frac × String)),
      scanCands ctx sel pre acc = .scores acc2 →
      scanCands ctx sel (pre ++ l) acc = scanCands ctx sel l acc2 := by
  intro pre
  induction pre with
  | nil =>
    intro l acc acc2 h
    simp only [scanCands] at h
    cases h
    simp
  | cons c rest ih =>
    intro l acc acc2 h
    simp only [scanCands, List.cons_append] at h ⊢
    cases hc : evalCand ctx sel c with
    | floor => rw [hc] at h; cases h
    | skip => rw [hc] at h; exact ih _ _ _ h
    | score sc => rw [hc] at h; exact ih _ _ _ h

/-- One round of the search on the tie dataset leaves the loop state
unchanged: the only candidate scores exactly the current score, the
equality-based loop condition stays true, and nothing is committed. -/
lemma tie_step (f : Nat) :
    loopAux ctxTie (f + 1) [] ["X1"] (some (fint 0)) (some (fint 0)) =
    loopAux ctxTie f [] ["X1"] (some (fint 0)) (some (fint 0)) := by
  have hscan : scanCands ctxTie [] ["X1"] [] = .scores [(some (fint 0), "X1")] := by decide
  have hlast : (sortScores [(some (fint 0), "X1")]).getLast? =
      some (some (fint 0), "X1") := by decide
  have hlt : foLt (some (fint 0)) (some (fint 0)) = false := by decide
  have hg : (!(["X1"] : List String).isEmpty && foEq (some (fint 0)) (some (fint 0)) &&
      decide (([] : List String).length < ctxTie.maxvars)) = true := by decide
  simp only [loopAux, hg, hscan, hlast, hlt, if_true]
  simp

/-- The tie loop never terminates: every fuel is exhausted. -/
lemma tie_fixpoint : ∀ (fuel : Nat),
    loopAux ctxTie fuel [] ["X1"] (some (fint 0)) (some (fint 0)) = none := by
  intro fuel
  induction fuel with
  | zero => decide
  | succ f ih => rw [tie_step f]; exact ih

/-- Size-one combinations are the singletons in order. -/
lemma combosK_one : ∀ (l : List String), combosK 1 l = l.map (fun x => [x]) := by
  intro l
  induction l with
  | nil => rfl
  | cons x xs ih => simp [combosK, ih]

/-- Multiplying by one is the identity on canonical fractions. -/
lemma zip_ones_id : ∀ (v : List Frac) (n : Nat), v.length = n →
    (∀ x ∈ v, fmul (fint 1) x = x) →
    List.zipWith fmul (onesVec n) v = v := by
  intro v
  induction v with
  | nil => intro n h _; subst h; rfl
  | cons x xs ih =>
    intro n h hx
    subst h
    simp only [onesVec, List.replicate, List.zipWith]
    rw [hx x (by simp)]
    congr 1
    exact ih xs.length rfl (fun t ht => hx t (by simp [ht]))

/-- Overwriting a column with its own current value changes nothing. -/
lemma setColAux_self (name : String) :
    ∀ (cols : List (String × List Frac)) (v : List Frac),
      (cols.find? (fun c => c.1 == name)).map (fun c => c.2) = some v →
      setColAux name v cols = cols := by
  intro cols
  induction cols with
  | nil => intro v h; simp [List.find?] at h
  | cons c cs ih =>
    intro v h
    simp only [setColAux]
    by_cases hc : (c.1 == name) = true
    · rw [if_pos hc]
      rw [List.find?_cons_of_pos (p := fun x => x.1 == name) cs hc] at h
      simp only [Option.map_some'] at h
      have hv : v = c.2 := by exact (Option.some.injEq _ _ ▸ h).symm
      have hn : c.1 = name := by simpa using hc
      subst hv
      rw [← hn]
    · rw [if_neg hc]
      rw [List.find?_cons_of_neg (p := fun x => x.1 == name) cs (by simpa using hc)] at h
      rw [ih v h]

/-- Column values of an existing name can be retrieved. -/
lemma getCol_of_mem_names (d : DataSet) (s : String) (h : s ∈ d.names) :
    ∃ v, d.getCol s = some v := by
  simp only [DataSet.names] at h
  obtain ⟨c, hc, hcs⟩ := List.mem_map.mp h
  have : (d.cols.find? (fun c => c.1 == s)).isSome := by
    rw [List.find?_isSome]
    exact ⟨c, hc, by simp [hcs]⟩
  obtain ⟨c2, hc2⟩ := Option.isSome_iff_exists.mp this
  exact ⟨c2.2, by simp [DataSet.getCol, hc2]⟩

/-- A retrieved column has the frame's row count. -/
lemma getCol_length (d : DataSet) (s : String) (v : List Frac)
    (h : d.getCol s = some v) (hrect : ∀ c ∈ d.cols, c.2.length = d.nrows) :
    v.length = d.nrows := by
  simp only [DataSet.getCol] at h
  cases hfind : d.cols.find? (fun c => c.1 == s) with
  | none => rw [hfind] at h; cases h
  | some c =>
    rw [hfind] at h
    simp only [Option.map_some'] at h
    cases h
    exact hrect c (List.mem_of_find?_eq_some hfind)

/-- Entries of a retrieved column satisfy any per-entry property that all
frame entries satisfy. -/
lemma getCol_entries (d : DataSet) (s : String) (v : List Frac)
    (h : d.getCol s = some v) (p : Frac → Prop)
    (hall : ∀ c ∈ d.cols, ∀ x ∈ c.2, p x) : ∀ x ∈ v, p x := by
  simp only [DataSet.getCol] at h
  cases hfind : d.cols.find? (fun c => c.1 == s) with
  | none => rw [hfind] at h; cases h
  | some c =>
    rw [hfind] at h
    simp only [Option.map_some'] at h
    cases h
    exact hall c (List.mem_of_find?_eq_some hfind)

/-- Names surviving a drop were names of the original frame. -/
lemma dropCol_names_sub (d : DataSet) (r s : String) (h : s ∈ (d.dropCol r).names) :
    s ∈ d.names := by
  simp only [DataSet.dropCol, DataSet.names] at h ⊢
  obtain ⟨c, hc, hcs⟩ := List.mem_map.mp h
  exact List.mem_map.mpr ⟨c, List.mem_of_mem_filter hc, hcs⟩

/-- With an existing response column, `forward_selected` is its search
loop started from `selected = force_in`, the remaining candidates, and
both scores at `0.0`. -/
lemma forwardSelected_eq_loop (data : DataSet) (response : String) (fi : List String)
    (mv fuel : Nat) (h : data.hasCol response = true) :
    forwardSelected data response fi mv fuel =
      loopAux (mkCtx data response mv) fuel fi (initRemaining data response fi)
        (some (fint 0)) (some (fint 0)) := by
  simp [forwardSelected, h]

/-- A call that returns a model has an existing response column. -/
lemma hasCol_of_ok (data : DataSet) (response : String) (fi : List String)
    (mv fuel : Nat) (m : FitModel)
    (hok : forwardSelected data response fi mv fuel = some (.ok m)) :
    data.hasCol response = true := by
  cases hcl : data.hasCol response
  · simp [forwardSelected, hcl] at hok
  · rfl

/-- C3 (code bug): on the five-row tie dataset the round's only
candidate scores exactly `0`, equal to the initial
`current_score = 0.0`.  The strict-improvement test
`current_score < best_new_score` is false, so the iteration fails to
improve and commits nothing — yet the `while` condition
`current_score == best_new_score` is still true, the loop re-enters
with a byte-identical state (same `selected`, `remaining` and scores),
and one round of fuel is consumed for nothing: `forward_selected` never
returns at this input, for any amount of fuel.  The claim (and spec)
say the loop ends at the first non-improving iteration and every call
runs to completion. -/
theorem c3_loops_forever_on_exact_tie :
    scanCands ctxTie [] ["X1"] [] = .scores [(some (fint 0), "X1")]
    ∧ foLt (some (fint 0)) (some (fint 0)) = false
    ∧ foEq (some (fint 0)) (some (fint 0)) = true
    ∧ (∀ f : Nat,
        loopAux ctxTie (f + 1) [] ["X1"] (some (fint 0)) (some (fint 0)) =
          loopAux ctxTie f [] ["X1"] (some (fint 0)) (some (fint 0)))
    ∧ (∀ fuel : Nat, forwardSelected dTie "Y" [] 5 fuel = none) := by
  refine ⟨by decide, by decide, by decide, tie_step, ?_⟩
  intro fuel
  rw [forwardSelected_eq_loop dTie "Y" [] 5 fuel (by decide)]
  rw [show initRemaining dTie "Y" [] = ["X1"] from by decide]
  exact tie_fixpoint fuel

set_option maxRecDepth 400000 in
/-- C1 counterexample: with `max_terms = 1` and no forced terms, the
interaction dataset commits the candidate named with a star together with
its two base columns in the first round, so the returned model's selected
list has three terms, exceeding `max_terms`. -/
theorem c1_counterexample :
    forwardSelected dInter "Y" [] 1 5 =
        some (.ok { exogNames := ["A", "B", "A*B", "Intercept"],
                    selected := ["A", "B", "A*B"] })
      ∧ ¬((["A", "B", "A*B"] : List String).length ≤ 1) := by
  exact ⟨by decide, by decide⟩

/-- C1 (amended): for every call with `max_terms ≥ len(force_in)` that
returns a model, the model's selected list contains every name in
`force_in` — unconditionally, since `selected` only ever grows from
`force_in` — and, when no dataset column name contains `"*"` (so no
commit pulls in extra base terms), its length never exceeds
`max_terms`. -/
theorem c1_amended (data : DataSet) (response : String) (fi : List String)
    (mv fuel : Nat) (m : FitModel)
    (hlen : fi.length ≤ mv)
    (hok : forwardSelected data response fi mv fuel = some (.ok m)) :
    (∀ x ∈ fi, x ∈ m.selected)
    ∧ ((∀ s ∈ data.names, hasStar s = false) → m.selected.length ≤ mv) := by
  have hresp := hasCol_of_ok data response fi mv fuel m hok
  rw [forwardSelected_eq_loop data response fi mv fuel hresp] at hok
  constructor
  · exact loopAux_mono (mkCtx data response mv) fuel fi
      (initRemaining data response fi) (some (fint 0)) (some (fint 0)) m hok
  · intro hnostar
    have hrem : ∀ c ∈ initRemaining data response fi, hasStar c = false :=
      fun c hc => hnostar c (List.mem_of_mem_filter hc)
    exact (loopAux_card (mkCtx data response mv) fuel fi
      (initRemaining data response fi) (some (fint 0)) (some (fint 0)) m hrem hlen hok).1

/-- Witness for the amended C1 at a concrete call: the forced name stays
selected and the star-free bound holds. -/
theorem c1_amended_witness :
    "X1" ∈ ({ exogNames := ["X1", "Intercept"], selected := ["X1"] } : FitModel).selected
    ∧ ({ exogNames := ["X1", "Intercept"],
         selected := ["X1"] } : FitModel).selected.length ≤ 1 :=
  have h := c1_amended dAlias "Y" ["X1"] 1 3
    { exogNames := ["X1", "Intercept"], selected := ["X1"] }
    (by decide) (by decide)
  ⟨h.1 "X1" (by decide), h.2 (by decide)⟩

/-- C2: once any trial in a round hits the degrees-of-freedom floor
`n - p - 1 < 1`, the scan of that round aborts no matter what candidates
are still pending (whether the floor candidate is first or follows
already-scored ones), the loop immediately returns, and the returned
model is the refit of exactly the currently selected terms plus the
intercept column. -/
theorem c2_dof_floor_aborts (ctx : Ctx) (sel : List String) (c : String)
    (rest : List String) (cur best : Option Frac) (f : Nat)
    (hfloor : evalCand ctx sel c = .floor)
    (heq : foEq cur best = true)
    (hlen : sel.length < ctx.maxvars) :
    (∀ (rest2 : List String) (acc : List (Option Frac × String)),
        scanCands ctx sel (c :: rest2) acc = .floorAbort sel)
    ∧ (∀ (pre : List String) (acc acc2 : List (Option Frac × String)),
        scanCands ctx sel pre acc = .scores acc2 →
        ∀ (rest2 : List String), scanCands ctx sel (pre ++ c :: rest2) acc = .floorAbort sel)
    ∧ loopAux ctx (f + 1) sel (c :: rest) cur best = some (.ok (finalRefit ctx sel))
    ∧ (finalRefit ctx sel).selected = sel
    ∧ (finalRefit ctx sel).exogNames =
        sel.filter (fun s => ctx.data.hasCol s) ++ ["Intercept"] := by
  have h1 : ∀ (rest2 : List String) (acc : List (Option Frac × String)),
      scanCands ctx sel (c :: rest2) acc = .floorAbort sel := by
    intro rest2 acc
    simp only [scanCands, hfloor]
  refine ⟨h1, ?_, ?_, rfl, rfl⟩
  · intro pre acc acc2 hpre rest2
    rw [scanCands_append ctx sel pre (c :: rest2) acc acc2 hpre]
    exact h1 rest2 acc2
  · have hg : (!(c :: rest).isEmpty && foEq cur best &&
        decide (sel.length < ctx.maxvars)) = true := by
      simp [heq, hlen]
    simp only [loopAux, hg, if_true, h1 rest []]

/-- Witness for C2 on a two-row dataset where the very first one-term
trial hits the floor. -/
theorem c2_witness :
    scanCands (mkCtx dFloor "Y" 5) [] ["A", "B"] [] = .floorAbort []
    ∧ loopAux (mkCtx dFloor "Y" 5) 3 [] ["A", "B"] (some (fint 0)) (some (fint 0)) =
        some (.ok (finalRefit (mkCtx dFloor "Y" 5) [])) :=
  have h := c2_dof_floor_aborts (mkCtx dFloor "Y" 5) [] "A" ["B"]
    (some (fint 0)) (some (fint 0)) 2 (by decide) (by decide) (by decide)
  ⟨h.1 ["B"] [], h.2.2.1⟩

/-- C4 counterexample: on the tie dataset's only candidate the design
matrix with the appended intercept has two columns, yet the recorded
score is the adjusted-R² formula evaluated at `p = 1` (the column count
before the intercept is appended), which differs from the formula at
`p = 2`. -/
theorem c4_counterexample :
    evalCand ctxTie [] "X1" = .score (some (adjR2Formula (fint 2) (fint 8) 5 1))
    ∧ (designCols ctxTie [] "X1").length = 2
    ∧ adjR2Formula (fint 2) (fint 8) 5 1 ≠ adjR2Formula (fint 2) (fint 8) 5 2 := by
  exact ⟨by decide, by decide, by decide⟩

/-- C4 (amended): whenever a candidate passes the floor test and its
Gram matrix is invertible and `SST ≠ 0`, the recorded score is exactly
`1 - (1 - SS_RES/SST)((n-1)/(n-p-1))` with `SS_RES = Σ(ŷᵢ - ȳ)²` over
the fitted values of the intercept-augmented design, and with
`p = X.shape[1]` recorded before the intercept column is appended. -/
theorem c4_amended (ctx : Ctx) (sel : List String) (cand : String) (fv : List Frac)
    (hfloor : floorB ctx sel cand = false)
    (hfit : fittedOf ctx sel cand = some fv)
    (hsst : ctx.sst.num ≠ 0) :
    evalCand ctx sel cand =
      .score (some (adjR2Formula (sumSqDev fv ctx.ymean) ctx.sst ctx.n
        (pOf ctx sel cand))) := by
  simp only [evalCand, hfloor, hfit]
  simp [fdivNaN, hsst, adjR2Formula]

/-- Witness for the amended C4 at the tie dataset's candidate. -/
theorem c4_amended_witness :
    evalCand ctxTie [] "X1" =
      .score (some (adjR2Formula
        (sumSqDev [fint 1, fint (-1), fint 0, fint 0, fint 0] ctxTie.ymean)
        ctxTie.sst ctxTie.n (pOf ctxTie [] "X1"))) :=
  c4_amended ctxTie [] "X1" [fint 1, fint (-1), fint 0, fint 0, fint 0]
    (by decide) (by decide) (by decide)

set_option maxRecDepth 400000 in
/-- C5 (code bug): on the spec's own singular-input scenario — two
identical candidate columns — the round after one copy is committed
skips the other copy as singular, leaving the round's score list empty,
and `scores_with_candidates.pop()` raises an uncaught `IndexError`: the
search crashes instead of continuing. -/
theorem c5_all_singular_round_crashes :
    evalCand (mkCtx dCollinear "Y" 2) ["B"] "A" = .skip
    ∧ forwardSelected dCollinear "Y" [] 2 3 = some .indexError := by
  exact ⟨by decide, by decide⟩

/-- C6 (code bug): `selected = force_in` aliases the caller's list, so
the engine's in-place `append`s are visible through the caller's
`force_in` object after the call: here an empty forced list has become
`["X1"]`. -/
theorem c6_force_in_mutated :
    forceInAfterCall dAlias "Y" [] 5 3 = ["X1"]
    ∧ (([] : List String) ≠ ["X1"]) := by
  exact ⟨by decide, by decide⟩

/-- C7 counterexample: an interaction-shaped name placed in `force_in`
reaches the final selected list without its base names ever being added,
so interaction closure fails for the returned model. -/
theorem c7_counterexample :
    forwardSelected dInter "Y" ["A*B"] 1 5 =
        some (.ok { exogNames := ["A*B", "Intercept"], selected := ["A*B"] })
    ∧ hasStar "A*B" = true
    ∧ "A" ∈ splitStar "A*B"
    ∧ "A" ∉ (["A*B"] : List String) := by
  exact ⟨by decide, by decide, by decide, by decide⟩

/-- C7 (amended): provided no forced name contains `"*"`, every
star-containing term of the returned model's selected list has all its
`"*"`-split fragments in that list — the search loop itself always
commits an interaction candidate's missing fragments along with it. -/
theorem c7_amended (data : DataSet) (response : String) (fi : List String)
    (mv fuel : Nat) (m : FitModel)
    (hfi : ∀ t ∈ fi, hasStar t = false)
    (hok : forwardSelected data response fi mv fuel = some (.ok m)) :
    ∀ t ∈ m.selected, hasStar t = true → ∀ f ∈ splitStar t, f ∈ m.selected := by
  have hresp := hasCol_of_ok data response fi mv fuel m hok
  rw [forwardSelected_eq_loop data response fi mv fuel hresp] at hok
  refine loopAux_closed (mkCtx data response mv) fuel fi
    (initRemaining data response fi) (some (fint 0)) (some (fint 0)) m ?_ hok
  intro t ht hstar
  exact absurd hstar (by simp [hfi t ht])

set_option maxRecDepth 400000 in
/-- Witness for the amended C7 on the interaction dataset without forced
terms: the loop commits `A*B` together with `A` and `B`, so the fragment
`A` of the selected interaction term `A*B` is itself selected. -/
theorem c7_amended_witness :
    "A" ∈ ({ exogNames := ["A", "B", "A*B", "Intercept"],
             selected := ["A", "B", "A*B"] } : FitModel).selected :=
  c7_amended dInter "Y" [] 1 5
    { exogNames := ["A", "B", "A*B", "Intercept"], selected := ["A", "B", "A*B"] }
    (by decide) (by decide) "A*B" (by decide) (by decide) "A" (by decide)

/-- C8 (code bug): with a zero-variance response (`SST = 0`) every
candidate's score is the NaN of `0/0`; NaN comparisons are false, so the
round commits nothing, the equality-based loop condition fails, and the
call silently returns an intercept-only model instead of surfacing an
unidentifiable-model error. -/
theorem c8_silent_nan_no_error :
    (mkCtx dZeroVar "Y" 5).sst = fint 0
    ∧ evalCand (mkCtx dZeroVar "Y" 5) [] "X1" = .score none
    ∧ forwardSelected dZeroVar "Y" [] 5 3 =
        some (.ok { exogNames := ["Intercept"], selected := [] }) := by
  exact ⟨by decide, by decide, by decide⟩

/-- C9 counterexample: with a base predictor column literally named
`"A*B"`, degree-1 expansion is not a no-op — the generated name `"A*B"`
is split on `"*"`, neither fragment is a column, the empty row product
is the ones column, and the original column's values are overwritten. -/
theorem c9_counterexample :
    genInteractionDf dStarCol "Y" 1 = some ⟨[("Y", [fint 0]), ("A*B", [fint 1])]⟩
    ∧ (⟨[("Y", [fint 0]), ("A*B", [fint 1])]⟩ : DataSet) ≠ dStarCol := by
  exact ⟨by decide, by decide⟩

/-- C9 (amended): when the response column exists, predictor names are
`"*"`-free, the frame is rectangular and entries are canonical, degree-1
expansion returns the frame unchanged: every generated name is a single
predictor whose column is overwritten with its own row values. -/
theorem c9_amended (df : DataSet) (response : String)
    (hresp : df.hasCol response = true)
    (hnostar : ∀ s ∈ (df.dropCol response).names, hasStar s = false)
    (hrect : ∀ c ∈ df.cols, c.2.length = df.nrows)
    (hnorm : ∀ c ∈ df.cols, ∀ x ∈ c.2, fmul (fint 1) x = x) :
    genInteractionDf df response 1 = some df := by
  simp only [genInteractionDf, hresp, if_true]
  have hstep : ∀ (s : String), s ∈ (df.dropCol response).names →
      df.setCol s (rowProduct (df.filterItems (splitStar s)) df.nrows) = df := by
    intro s hs
    rw [splitStar_nostar s (hnostar s hs)]
    obtain ⟨v, hv⟩ := getCol_of_mem_names df s (dropCol_names_sub df response s hs)
    have hitems : df.filterItems [s] = [v] := by
      simp [DataSet.filterItems, hv]
    rw [hitems]
    have hrp : rowProduct [v] df.nrows = v := by
      simp only [rowProduct, List.foldl]
      exact zip_ones_id v df.nrows (getCol_length df s v hv hrect)
        (getCol_entries df s v hv _ hnorm)
    rw [hrp]
    show DataSet.mk (setColAux s v df.cols) = df
    rw [setColAux_self s df.cols v hv]
  have hnames : (List.range 1).flatMap (fun i =>
      (combosK (i + 1) ((df.dropCol response).names)).map joinStar) =
      (df.dropCol response).names := by
    simp only [List.range_succ, List.range_zero, List.nil_append, List.flatMap_cons,
      List.flatMap_nil, List.append_nil, Nat.zero_add, combosK_one, List.map_map]
    have : joinStar ∘ (fun x => [x]) = id := by
      funext x
      rfl
    rw [this, List.map_id]
  rw [hnames]
  have hfold : ∀ (l : List String), (∀ s ∈ l, s ∈ (df.dropCol response).names) →
      l.foldl (fun d name =>
        d.setCol name (rowProduct (d.filterItems (splitStar name)) d.nrows)) df = df := by
    intro l
    induction l with
    | nil => intro _; rfl
    | cons s rest ih =>
      intro h
      simp only [List.foldl]
      rw [hstep s (h s (by simp))]
      exact ih (fun t ht => h t (by simp [ht]))
  rw [hfold _ (fun s hs => hs)]

/-- Witness for the amended C9 on a star-free two-column frame. -/
theorem c9_amended_witness : genInteractionDf dAlias "Y" 1 = some dAlias :=
  c9_amended dAlias "Y" (by decide) (by decide) (by decide) (by decide)

/-- C10: term classification is purely the `"*"` string test — when the
committed best candidate's name contains `"*"`, the new selected list is
the old one extended by each not-yet-selected split fragment and then
the candidate, regardless of whether the fragments are dataset columns;
and the final refit's exogenous names silently keep only the selected
names that exist as columns (plus the intercept).  Concretely, a base
column literally named `"A*B"` drags phantom names `"A"` and `"B"` into
`selected`, which the final `filter` then drops. -/
theorem c10_star_test_and_silent_drop :
    (∀ (sel rem : List String) (bc : String), hasStar bc = true →
        (commitBest sel rem bc).1 =
          ((splitStar bc).foldl (fun s f => if s.contains f then s else s ++ [f]) sel)
            ++ [bc])
    ∧ (∀ (ctx : Ctx) (sel : List String),
        (finalRefit ctx sel).exogNames =
          sel.filter (fun s => ctx.data.hasCol s) ++ ["Intercept"])
    ∧ forwardSelected dStarName "Y" [] 5 3 =
        some (.ok { exogNames := ["A*B", "Intercept"], selected := ["A", "B", "A*B"] })
    ∧ dStarName.hasCol "A" = false ∧ dStarName.hasCol "B" = false := by
  refine ⟨?_, fun ctx sel => rfl, by decide, by decide, by decide⟩
  intro sel rem bc h
  simp only [commitBest, if_pos h, commitFrags_fst_foldl]

/-- Witness for C10's commit equation at an interaction-shaped name. -/
theorem c10_witness :
    (commitBest [] ["A*B"] "A*B").1 =
      ((splitStar "A*B").foldl (fun s f => if s.contains f then s else s ++ [f]) [])
        ++ ["A*B"] :=
  c10_star_test_and_silent_drop.1 [] ["A*B"] "A*B" (by decide)

/-- Witness for C3 at a concrete fuel: three rounds of fuel are already
exhausted without the call returning. -/
theorem c3_witness : forwardSelected dTie "Y" [] 5 3 = none :=
  c3_loops_forever_on_exact_tie.2.2.2.2 3
